import Mathlib

/-!
# Plupy timestamp-decoder verification

Shallow embedding of the `arduino_UNO` data-processing routines of
`plupy.py` (`read_timestamps`, `convert_units`, `channel_cleaner`) and
proofs of the specification's claims about them.

A binary stream is modelled as a `List Nat` of byte values (Python `bytes`
guarantees each element is `< 256`; theorems that need this carry it as a
hypothesis).  Python's arbitrary-precision integers are modelled by `Nat`
(the `-1` sentinel for "no previous timestamp" uses `Int`, as in the
source).
-/

namespace Plupy

/-- The hex string of a byte sequence groups exactly two hex characters per
byte, so the source's 8-hex-character chunking of `bytes_hex` is 4-byte
chunking of the reversed byte list.  `chunk4` partitions a byte list into
consecutive groups of 4, the last group possibly shorter. -/
def chunk4 : List Nat → List (List Nat)
  | [] => []
  | [a] => [[a]]
  | [a, b] => [[a, b]]
  | [a, b, c] => [[a, b, c]]
  | a :: b :: c :: d :: rest => [a, b, c, d] :: chunk4 rest

/-- `int(h, 16)` on the hex string of a byte group: the big-endian value of
the group. -/
def beVal (l : List Nat) : Nat :=
  l.foldl (fun acc b => acc * 256 + b) 0

/-- Little-endian value of a byte group (spec-side notion used to compare
against the source's reverse/chunk/reverse extraction). -/
def leVal : List Nat → Nat
  | [] => 0
  | b :: l => b + 256 * leVal l

/-- Source lines 546-550:
`bytes_hex = binary_stream[::-1].hex()` followed by
`[int(bytes_hex[i:i+8], 16) for i in range(0, len(bytes_hex), 8)][::-1]`:
reverse the stream, cut into 4-byte groups read big-endian, and reverse
the list of group values back. -/
def ts_word_list (binary_stream : List Nat) : List Nat :=
  ((chunk4 binary_stream.reverse).map beVal).reverse

/-- `periode_duration = 1 << 27` (source line 556). -/
def periode_duration : Nat := 1 <<< 27

/-- One `prev_ts`/`periode_count` update of the loop body (source lines
567-572): increment the rollover count when a previous timestamp exists
(`prev ≠ -1`) and the current one is strictly smaller. -/
def stepCount (prev : Int) (time_stamp : Nat) (cnt : Nat) : Nat :=
  if prev ≠ -1 ∧ (time_stamp : Int) < prev then cnt + 1 else cnt

/-- The decoding loop of `read_timestamps` (source lines 560-585),
parametrised by the channel renderer `render` (`legacy` saves
`"{0:04b}".format(pattern & 0xF)`, otherwise `pattern & 0xF` itself).
For each word: `time_stamp = ts_word >> 5`, `pattern = ts_word & 0x1F`;
update the rollover count and `prev_ts`; when the dummy flag
`pattern & 0x10` is zero, emit `time_stamp + periode_duration * periode_count`
and the rendered channel pattern. -/
def readLoop {α : Type} (render : Nat → α) :
    List Nat → Int → Nat → List Nat × List α
  | [], _, _ => ([], [])
  | ts_word :: ws, prev, cnt =>
    let time_stamp := ts_word >>> 5
    let pattern := ts_word &&& 0x1F
    let cnt' := stepCount prev time_stamp cnt
    let rest := readLoop render ws (time_stamp : Int) cnt'
    if pattern &&& 0x10 = 0 then
      ((time_stamp + periode_duration * cnt') :: rest.1,
       render (pattern &&& 0xF) :: rest.2)
    else rest

/-- The final (`prev_ts`, `periode_count`) state after running the loop on
a word list. -/
def loopState : List Nat → Int → Nat → Int × Nat
  | [], prev, cnt => (prev, cnt)
  | ts_word :: ws, prev, cnt =>
    let time_stamp := ts_word >>> 5
    loopState ws (time_stamp : Int) (stepCount prev time_stamp cnt)

/-- `"{0:04b}".format(n)` for `n < 16` (the call site masks with `0xF`):
the 4-character binary rendering, most significant bit first. -/
def toBin4 (n : Nat) : List Char :=
  [if n.testBit 3 then '1' else '0',
   if n.testBit 2 then '1' else '0',
   if n.testBit 1 then '1' else '0',
   if n.testBit 0 then '1' else '0']

/-- Decoding of an already-extracted word list: run the loop with
`prev_ts = -1`, `periode_count = 0` and scale the timestamps by 2
(`np.array(ts_list, dtype="int64") * 2`, source line 586). -/
def decode_words (ws : List Nat) : List Nat × List Nat :=
  let r := readLoop id ws (-1) 0
  (r.1.map (· * 2), r.2)

/-- `read_timestamps(binary_stream, legacy=False)`: word extraction
followed by the decoding loop, channel patterns as integers. -/
def read_timestamps (binary_stream : List Nat) : List Nat × List Nat :=
  decode_words (ts_word_list binary_stream)

/-- `read_timestamps(binary_stream, legacy=True)`: same loop, channel
patterns rendered as 4-character bit strings. -/
def read_timestamps_legacy (binary_stream : List Nat) :
    List Nat × List (List Char) :=
  let r := readLoop toBin4 (ts_word_list binary_stream) (-1) 0
  (r.1.map (· * 2), r.2)

/-- `convert_units(counts_ns, units)` (source lines 591-621): scale the
sequence according to the unit symbol.  Counts are idealised as exact
rationals (`10**(-3)` and the elementwise numpy products are
floating-point in the source).  A symbol outside the four branches leaves
`counts_converted` unbound in the source (`NameError`), modelled as
`none`. -/
def convert_units (counts_ns : List ℚ) (units : String) : Option (List ℚ) :=
  if units = "ns" then some counts_ns
  else if units = "us" then some (counts_ns.map (fun x => x * (10 : ℚ) ^ (-3 : ℤ)))
  else if units = "ms" then some (counts_ns.map (fun x => x * (10 : ℚ) ^ (-6 : ℤ)))
  else if units = "s" then some (counts_ns.map (fun x => x * (10 : ℚ) ^ (-9 : ℤ)))
  else none

/-- `channel_cleaner(cha_info)` (source lines 623-665): expand each
4-character pattern into the active channel names (`cha_list[0]` is CH4
down to `cha_list[3]` which is CH1) and count per-channel activations.
Returns `(cha_clean, (counts_1, counts_2, counts_3, counts_4))`.
Out-of-range indexing (`IndexError` in Python) is modelled by `getD` with
a blank default, which no branch matches. -/
def channel_cleaner : List (List Char) → List (List String) × (Nat × Nat × Nat × Nat)
  | [] => ([], (0, 0, 0, 0))
  | cha_list :: rest =>
    let channel : List String :=
      (if cha_list.getD 0 ' ' = '1' then ["CH4"] else []) ++
      (if cha_list.getD 1 ' ' = '1' then ["CH3"] else []) ++
      (if cha_list.getD 2 ' ' = '1' then ["CH2"] else []) ++
      (if cha_list.getD 3 ' ' = '1' then ["CH1"] else [])
    let r := channel_cleaner rest
    (channel :: r.1,
     ((if cha_list.getD 3 ' ' = '1' then 1 else 0) + r.2.1,
      (if cha_list.getD 2 ' ' = '1' then 1 else 0) + r.2.2.1,
      (if cha_list.getD 1 ' ' = '1' then 1 else 0) + r.2.2.2.1,
      (if cha_list.getD 0 ' ' = '1' then 1 else 0) + r.2.2.2.2))

/-! ## Word-extraction lemmas -/

lemma periode_duration_eq : periode_duration = 2 ^ 27 := rfl

lemma chunk4_append (X Y : List Nat) (h : 4 ∣ X.length) :
    chunk4 (X ++ Y) = chunk4 X ++ chunk4 Y := by
  induction X using chunk4.induct with
  | case1 => simp [chunk4]
  | case2 a => simp at h
  | case3 a b => simp at h; omega
  | case4 a b c => simp at h; omega
  | case5 a b c d rest ih =>
    have h' : 4 ∣ rest.length := by
      simp only [List.length_cons] at h; omega
    simpa [chunk4] using ih h'

lemma beVal_append_singleton (l : List Nat) (x : Nat) :
    beVal (l ++ [x]) = beVal l * 256 + x := by
  simp [beVal, List.foldl_append]

lemma beVal_reverse (l : List Nat) : beVal l.reverse = leVal l := by
  induction l with
  | nil => rfl
  | cons x xs ih =>
    simp only [List.reverse_cons, beVal_append_singleton, ih, leVal]
    ring

lemma chunk4_small (l : List Nat) (h0 : l ≠ []) (h4 : l.length ≤ 4) :
    chunk4 l = [l] := by
  match l, h0 with
  | [a], _ => rfl
  | [a, b], _ => rfl
  | [a, b, c], _ => rfl
  | [a, b, c, d], _ => rfl
  | a :: b :: c :: d :: e :: rest, _ => simp at h4

lemma ts_word_list_aligned (s : List Nat) (h : 4 ∣ s.length) :
    ts_word_list s = (chunk4 s).map leVal := by
  induction s using chunk4.induct with
  | case1 => rfl
  | case2 a => simp at h
  | case3 a b => simp at h; omega
  | case4 a b c => simp at h; omega
  | case5 a b c d rest ih =>
    have h' : 4 ∣ rest.length := by
      simp only [List.length_cons] at h; omega
    have hrev : (a :: b :: c :: d :: rest).reverse
        = rest.reverse ++ [d, c, b, a] := by simp
    have hdvd : 4 ∣ rest.reverse.length := by simpa using h'
    have hbe : beVal [d, c, b, a] = leVal [a, b, c, d] := by
      simpa using beVal_reverse [a, b, c, d]
    simp only [ts_word_list, hrev, chunk4_append _ _ hdvd] at *
    simp [chunk4, ih h', hbe]

lemma ts_word_list_unaligned (s : List Nat) (h : s.length % 4 ≠ 0) :
    ts_word_list s =
      leVal (s.take (s.length % 4)) ::
        (chunk4 (s.drop (s.length % 4))).map leVal := by
  set r := s.length % 4 with hr
  have hrle : r ≤ s.length := Nat.mod_le _ _
  have hsplit : s = s.take r ++ s.drop r := (List.take_append_drop r s).symm
  have hlen_take : (s.take r).length = r := by
    simp [List.length_take]; omega
  have hlen_drop : 4 ∣ (s.drop r).length := by
    simp only [List.length_drop]; omega
  have hrev : s.reverse = (s.drop r).reverse ++ (s.take r).reverse := by
    conv_lhs => rw [hsplit]
    simp [List.reverse_append]
  have hne : (s.take r).reverse ≠ [] := by
    simp only [ne_eq, List.reverse_eq_nil_iff]
    intro hnil
    rw [hnil] at hlen_take
    simp at hlen_take
    omega
  have hc : chunk4 ((s.take r).reverse) = [(s.take r).reverse] :=
    chunk4_small _ hne (by rw [List.length_reverse, hlen_take]; omega)
  have hdvd4 : 4 ∣ (s.drop r).reverse.length := by simpa using hlen_drop
  calc ts_word_list s
      = ((chunk4 ((s.drop r).reverse ++ (s.take r).reverse)).map beVal).reverse := by
        rw [ts_word_list, hrev]
    _ = leVal (s.take r) :: ((chunk4 (s.drop r).reverse).map beVal).reverse := by
        rw [chunk4_append _ _ hdvd4, hc]
        simp [beVal_reverse]
    _ = leVal (s.take r) :: (chunk4 (s.drop r)).map leVal := by
        rw [show ((chunk4 (s.drop r).reverse).map beVal).reverse
            = ts_word_list (s.drop r) from rfl,
          ts_word_list_aligned _ hlen_drop]

/-! ## Decoding-loop lemmas -/

lemma readLoop_length {α : Type} (f : Nat → α) (ws : List Nat) (p : Int) (c : Nat) :
    (readLoop f ws p c).1.length = (readLoop f ws p c).2.length := by
  induction ws generalizing p c with
  | nil => rfl
  | cons w ws ih =>
    simp only [readLoop]
    by_cases hv : (w &&& 0x1F) &&& 0x10 = 0 <;> simp [hv, ih]

lemma readLoop_append {α : Type} (f : Nat → α) (A B : List Nat) (p : Int) (c : Nat) :
    readLoop f (A ++ B) p c
      = ((readLoop f A p c).1
          ++ (readLoop f B (loopState A p c).1 (loopState A p c).2).1,
         (readLoop f A p c).2
          ++ (readLoop f B (loopState A p c).1 (loopState A p c).2).2) := by
  induction A generalizing p c with
  | nil => simp [readLoop, loopState]
  | cons w ws ih =>
    simp only [List.cons_append, readLoop, loopState]
    by_cases hv : (w &&& 0x1F) &&& 0x10 = 0 <;>
      simp [hv, List.append_eq, ih]

lemma stepCount_add (p : Int) (t : Nat) (c d : Nat) :
    stepCount p t (c + d) = stepCount p t c + d := by
  unfold stepCount; split <;> omega

lemma readLoop_shift {α : Type} (f : Nat → α) (ws : List Nat) (p : Int) (c d : Nat) :
    (readLoop f ws p (c + d)).1
        = (readLoop f ws p c).1.map (· + periode_duration * d)
    ∧ (readLoop f ws p (c + d)).2 = (readLoop f ws p c).2 := by
  induction ws generalizing p c with
  | nil => simp [readLoop]
  | cons w ws ih =>
    simp only [readLoop, stepCount_add]
    obtain ⟨ih1, ih2⟩ := ih (↑(w >>> 5)) (stepCount p (w >>> 5) c)
    by_cases hv : (w &&& 0x1F) &&& 0x10 = 0 <;> simp [hv, ih1, ih2]
    ring

lemma stepCount_coe (v t c : Nat) :
    stepCount (v : Int) t c = if t < v then c + 1 else c := by
  unfold stepCount
  have h1 : ((v : Int) ≠ -1 ∧ ((t : Nat) : Int) < (v : Int)) ↔ t < v := by
    constructor
    · intro h; exact_mod_cast h.2
    · intro h; exact ⟨by omega, by exact_mod_cast h⟩
  simp only [h1]

lemma readLoop_no_rollover {α : Type} (f : Nat → α) (ws : List Nat) (p : Int) (c : Nat)
    (hp : ∀ w0 ∈ ws.head?, ¬ (((w0 >>> 5 : Nat) : Int) < p))
    (hchain : List.Chain' (· ≤ ·) (ws.map (· >>> 5))) :
    readLoop f ws p c
      = ((ws.filter (fun w => (w &&& 0x1F) &&& 0x10 == 0)).map
            (fun w => w >>> 5 + periode_duration * c),
         (ws.filter (fun w => (w &&& 0x1F) &&& 0x10 == 0)).map
            (fun w => f ((w &&& 0x1F) &&& 0xF))) := by
  induction ws generalizing p c with
  | nil => rfl
  | cons w ws ih =>
    have hstep : stepCount p (w >>> 5) c = c := by
      unfold stepCount
      rw [if_neg]
      rintro ⟨-, hlt⟩
      exact hp w (by simp) hlt
    have hp' : ∀ w1 ∈ ws.head?, ¬ (((w1 >>> 5 : Nat) : Int) < ((w >>> 5 : Nat) : Int)) := by
      intro w1 h1
    -- the chain gives `w >>> 5 ≤ w1 >>> 5` for the next word `w1`
      cases ws with
      | nil => simp at h1
      | cons w2 ws2 =>
        simp only [List.head?_cons, Option.mem_def, Option.some.injEq] at h1
        subst h1
        simp only [List.map_cons, List.chain'_cons] at hchain
        have h2 : w >>> 5 ≤ w2 >>> 5 := hchain.1
        omega
    have hchain' : List.Chain' (· ≤ ·) (ws.map (· >>> 5)) :=
      (List.chain'_cons'.mp (by simpa using hchain)).2
    simp only [readLoop, hstep, ih _ _ hp' hchain']
    by_cases hv : (w &&& 0x1F) &&& 0x10 = 0 <;>
      simp [hv, List.filter_cons]

lemma readLoop_ts_lb {α : Type} (f : Nat → α) (ws : List Nat)
    (hw : ∀ w ∈ ws, w >>> 5 < periode_duration) (v : Nat) (hv : v < periode_duration)
    (c : Nat) :
    ∀ t ∈ (readLoop f ws (v : Int) c).1, v + periode_duration * c ≤ t := by
  induction ws generalizing v c with
  | nil => simp [readLoop]
  | cons w ws ih =>
    have hw0 : w >>> 5 < periode_duration := hw w (by simp)
    have hwrest : ∀ x ∈ ws, x >>> 5 < periode_duration :=
      fun x hx => hw x (by simp [hx])
    simp only [readLoop, stepCount_coe]
    set c' := if w >>> 5 < v then c + 1 else c with hc'
    have hlow : v + periode_duration * c ≤ w >>> 5 + periode_duration * c' := by
      by_cases h : w >>> 5 < v <;> simp [hc', h] <;> nlinarith [hv, hw0]
    have htail := ih hwrest (w >>> 5) hw0 c'
    by_cases hvalid : (w &&& 0x1F) &&& 0x10 = 0
    · simp only [if_pos hvalid, List.mem_cons]
      rintro t (rfl | ht)
      · exact hlow
      · exact le_trans hlow (htail t ht)
    · simp only [if_neg hvalid]
      intro t ht
      exact le_trans hlow (htail t ht)

lemma readLoop_pairwise {α : Type} (f : Nat → α) (ws : List Nat)
    (hw : ∀ w ∈ ws, w >>> 5 < periode_duration) (v : Nat) (hv : v < periode_duration)
    (c : Nat) :
    List.Pairwise (· ≤ ·) (readLoop f ws (v : Int) c).1 := by
  induction ws generalizing v c with
  | nil => simp [readLoop]
  | cons w ws ih =>
    have hw0 : w >>> 5 < periode_duration := hw w (by simp)
    have hwrest : ∀ x ∈ ws, x >>> 5 < periode_duration :=
      fun x hx => hw x (by simp [hx])
    simp only [readLoop, stepCount_coe]
    set c' := if w >>> 5 < v then c + 1 else c with hc'
    have htail := ih hwrest (w >>> 5) hw0 c'
    by_cases hvalid : (w &&& 0x1F) &&& 0x10 = 0
    · simp only [if_pos hvalid]
      refine List.pairwise_cons.mpr ⟨?_, htail⟩
      intro t ht
      have := readLoop_ts_lb f ws hwrest (w >>> 5) hw0 c' t ht
      omega
    · simpa [hvalid] using htail

lemma chunk4_length_le (l : List Nat) : ∀ g ∈ chunk4 l, g.length ≤ 4 := by
  induction l using chunk4.induct with
  | case1 => simp [chunk4]
  | case2 a => simp [chunk4]
  | case3 a b => simp [chunk4]
  | case4 a b c => simp [chunk4]
  | case5 a b c d rest ih =>
    intro g hg
    simp only [chunk4, List.mem_cons] at hg
    rcases hg with rfl | hg
    · simp
    · exact ih g hg

lemma chunk4_mem_mem (l : List Nat) : ∀ g ∈ chunk4 l, ∀ b ∈ g, b ∈ l := by
  induction l using chunk4.induct with
  | case1 => simp [chunk4]
  | case2 a => simp [chunk4]
  | case3 a b => simp [chunk4]
  | case4 a b c => simp [chunk4]
  | case5 a b c d rest ih =>
    intro g hg b hb
    simp only [chunk4, List.mem_cons] at hg ⊢
    rcases hg with rfl | hg
    · simp only [List.mem_cons] at hb
      tauto
    · have := ih g hg b hb
      tauto

lemma beVal_lt (l : List Nat) (h : ∀ b ∈ l, b < 256) :
    beVal l < 256 ^ l.length := by
  induction l using List.reverseRecOn with
  | nil => simp [beVal]
  | append_singleton l x ih =>
    have hx : x < 256 := h x (by simp)
    have hl : beVal l < 256 ^ l.length := ih fun b hb => h b (by simp [hb])
    rw [beVal_append_singleton]
    simp only [List.length_append, List.length_singleton]
    rw [pow_succ]
    omega

lemma ts_word_bound (s : List Nat) (hs : ∀ b ∈ s, b < 256) :
    ∀ w ∈ ts_word_list s, w >>> 5 < periode_duration := by
  intro w hw
  simp only [ts_word_list, List.mem_reverse, List.mem_map] at hw
  obtain ⟨g, hg, rfl⟩ := hw
  have hlen : g.length ≤ 4 := chunk4_length_le _ g hg
  have hb : ∀ b ∈ g, b < 256 := fun b hbg =>
    hs b (by simpa using chunk4_mem_mem _ g hg b hbg)
  have h1 : beVal g < 256 ^ g.length := beVal_lt g hb
  have h2 : (256 : Nat) ^ g.length ≤ 256 ^ 4 :=
    Nat.pow_le_pow_right (by norm_num) hlen
  have h3 : beVal g < 2 ^ 32 := by
    calc beVal g < 256 ^ g.length := h1
      _ ≤ 256 ^ 4 := h2
      _ = 2 ^ 32 := by norm_num
  simp only [periode_duration]
  omega

lemma readLoop_pairwise_init {α : Type} (f : Nat → α) (ws : List Nat)
    (hw : ∀ w ∈ ws, w >>> 5 < periode_duration) :
    List.Pairwise (· ≤ ·) (readLoop f ws (-1) 0).1 := by
  cases ws with
  | nil => simp [readLoop]
  | cons w ws =>
    have hw0 : w >>> 5 < periode_duration := hw w (by simp)
    have hwrest : ∀ x ∈ ws, x >>> 5 < periode_duration :=
      fun x hx => hw x (by simp [hx])
    have hstep : stepCount (-1) (w >>> 5) 0 = 0 := by
      unfold stepCount; simp
    simp only [readLoop, hstep]
    by_cases hvalid : (w &&& 0x1F) &&& 0x10 = 0
    · simp only [if_pos hvalid]
      refine List.pairwise_cons.mpr ⟨?_, readLoop_pairwise f ws hwrest (w >>> 5) hw0 0⟩
      intro t ht
      have := readLoop_ts_lb f ws hwrest (w >>> 5) hw0 0 t ht
      omega
    · simpa [hvalid] using readLoop_pairwise f ws hwrest (w >>> 5) hw0 0

/-! ## Claim theorems -/

/-- C1: on a stream whose decoded raw counter values never wrap (zero
rollovers, i.e. the raw values are non-decreasing in input order),
`read_timestamps` outputs, for each valid word (trailer flag bit clear)
and in input word order, exactly the word's raw 27-bit counter value
multiplied by 2. -/
theorem C1_zero_rollover_timestamps (s : List Nat)
    (h : List.Chain' (· ≤ ·) ((ts_word_list s).map (· >>> 5))) :
    (read_timestamps s).1
      = ((ts_word_list s).filter (fun w => (w &&& 0x1F) &&& 0x10 == 0)).map
          (fun w => (w >>> 5) * 2) := by
  unfold read_timestamps decode_words
  rw [readLoop_no_rollover id _ (-1) 0 (by intro w0 h0; omega) h]
  simp [List.map_map, Function.comp]

theorem C1_witness :
    (read_timestamps [32, 0, 0, 0, 96, 0, 0, 0]).1
      = ((ts_word_list [32, 0, 0, 0, 96, 0, 0, 0]).filter
          (fun w => (w &&& 0x1F) &&& 0x10 == 0)).map (fun w => (w >>> 5) * 2) :=
  C1_zero_rollover_timestamps [32, 0, 0, 0, 96, 0, 0, 0] (by
    have h : (ts_word_list [32, 0, 0, 0, 96, 0, 0, 0]).map (· >>> 5) = [1, 3] := rfl
    rw [h]
    simp)

/-- C3: on any byte stream the emitted timestamp list is non-decreasing:
every raw counter value fits in 27 bits, so rollover correction makes each
emitted timestamp at least the previously emitted one. -/
theorem C3_timestamps_monotone (s : List Nat) (hs : ∀ b ∈ s, b < 256) :
    List.Chain' (· ≤ ·) (read_timestamps s).1 := by
  have h := readLoop_pairwise_init id (ts_word_list s) (ts_word_bound s hs)
  unfold read_timestamps decode_words
  apply List.Pairwise.chain'
  exact h.map _ (fun a b hab => by simpa using Nat.mul_le_mul_right 2 hab)

theorem C3_witness :
    List.Chain' (· ≤ ·)
      (read_timestamps [96, 0, 0, 0, 80, 6, 0, 0, 224, 0, 0, 0]).1 :=
  C3_timestamps_monotone [96, 0, 0, 0, 80, 6, 0, 0, 224, 0, 0, 0] (by decide)

/-- C5: on a word-aligned stream the reverse/chunk/reverse extraction of
`read_timestamps` produces exactly the consecutive 4-byte groups of the
stream, in original order, each read as a little-endian 32-bit unsigned
integer. -/
theorem C5_extraction_is_little_endian (s : List Nat) (h : 4 ∣ s.length) :
    ts_word_list s = (chunk4 s).map leVal :=
  ts_word_list_aligned s h

theorem C5_witness :
    ts_word_list [1, 2, 3, 4, 5, 6, 7, 8]
      = (chunk4 [1, 2, 3, 4, 5, 6, 7, 8]).map leVal :=
  C5_extraction_is_little_endian [1, 2, 3, 4, 5, 6, 7, 8] (by decide)

/-- C7 counterexample: on the one-byte stream `[0]` the decoder does not
truncate the partial word — it outputs one event, while the longest
word-aligned prefix (the empty stream) yields no events. -/
theorem C7_counterexample :
    ¬ (read_timestamps [0]
        = read_timestamps (List.take (4 * ([0].length / 4)) [0])) := by
  decide

/-- C7 amended: on a stream whose byte length is not a multiple of 4, the
partial word is not dropped: the leftover is the FIRST `length % 4` bytes
of the stream (a consequence of the double reversal), which are decoded as
one extra little-endian word preceding the words of the remaining aligned
4-byte groups. -/
theorem C7_amended_leading_partial_word (s : List Nat) (h : s.length % 4 ≠ 0) :
    read_timestamps s
      = decode_words (leVal (s.take (s.length % 4))
          :: (chunk4 (s.drop (s.length % 4))).map leVal) := by
  unfold read_timestamps
  rw [ts_word_list_unaligned s h]

theorem C7_amended_witness :
    read_timestamps [1, 2, 3, 4, 5]
      = decode_words (leVal ([1, 2, 3, 4, 5].take ([1, 2, 3, 4, 5].length % 4))
          :: (chunk4 ([1, 2, 3, 4, 5].drop ([1, 2, 3, 4, 5].length % 4))).map leVal) :=
  C7_amended_leading_partial_word [1, 2, 3, 4, 5] (by decide)

/-- C10: the timestamp list and the channel-pattern list returned by
`read_timestamps` always have the same length (one entry each per valid
word, appended in the same iteration), in both the legacy string mode and
the integer mode. -/
theorem C10_output_lengths_match (s : List Nat) :
    (read_timestamps s).1.length = (read_timestamps s).2.length
    ∧ (read_timestamps_legacy s).1.length = (read_timestamps_legacy s).2.length := by
  unfold read_timestamps decode_words read_timestamps_legacy
  simp [readLoop_length]

/-! ## `channel_cleaner` and `convert_units` -/

/-- Spec-side per-pattern expansion: the active channel names among CH4,
CH3, CH2, CH1, in that fixed descending-bit order (character 0 of the
pattern is channel 4's bit, character 3 is channel 1's). -/
def chExpand (p : List Char) : List String :=
  (if p.getD 0 ' ' = '1' then ["CH4"] else []) ++
  (if p.getD 1 ' ' = '1' then ["CH3"] else []) ++
  (if p.getD 2 ' ' = '1' then ["CH2"] else []) ++
  (if p.getD 3 ' ' = '1' then ["CH1"] else [])

lemma channel_cleaner_fst (l : List (List Char)) :
    (channel_cleaner l).1 = l.map chExpand := by
  induction l with
  | nil => rfl
  | cons p rest ih => simp [channel_cleaner, chExpand, ih]

lemma channel_cleaner_snd (l : List (List Char)) :
    (channel_cleaner l).2
      = ((l.filter (fun p => p.getD 3 ' ' == '1')).length,
         (l.filter (fun p => p.getD 2 ' ' == '1')).length,
         (l.filter (fun p => p.getD 1 ' ' == '1')).length,
         (l.filter (fun p => p.getD 0 ' ' == '1')).length) := by
  induction l with
  | nil => rfl
  | cons p rest ih =>
    simp only [channel_cleaner, ih, List.filter_cons, Prod.mk.injEq]
    refine ⟨?_, ?_, ?_, ?_⟩ <;> split_ifs <;> simp_all [Nat.add_comm]

/-- C8: `channel_cleaner` maps each pattern to its active channel names in
fixed CH4, CH3, CH2, CH1 order, and each channel's total equals the number
of patterns whose corresponding character is `'1'`; in particular the
pattern "0110" expands to `["CH3", "CH2"]` and increments only the counts
of channels 2 and 3. -/
theorem C8_channel_cleaner (l : List (List Char)) :
    (channel_cleaner l).1 = l.map chExpand
    ∧ (channel_cleaner l).2
        = ((l.filter (fun p => p.getD 3 ' ' == '1')).length,
           (l.filter (fun p => p.getD 2 ' ' == '1')).length,
           (l.filter (fun p => p.getD 1 ' ' == '1')).length,
           (l.filter (fun p => p.getD 0 ' ' == '1')).length)
    ∧ channel_cleaner [['0', '1', '1', '0']] = ([["CH3", "CH2"]], (0, 1, 1, 0)) :=
  ⟨channel_cleaner_fst l, channel_cleaner_snd l, by decide⟩

/-- Spec-side scale factor for each unit symbol. -/
def unitFactor (u : String) : ℚ :=
  if u = "ns" then 1
  else if u = "us" then 1 / 10 ^ 3
  else if u = "ms" then 1 / 10 ^ 6
  else 1 / 10 ^ 9

/-- C9: for each unit symbol in {ns, us, ms, s}, `convert_units` scales the
sequence elementwise, preserving order, by 1, 10⁻³, 10⁻⁶, 10⁻⁹
respectively (floating-point products idealised as exact rationals). -/
theorem C9_convert_units (l : List ℚ) (u : String)
    (hu : u = "ns" ∨ u = "us" ∨ u = "ms" ∨ u = "s") :
    convert_units l u = some (l.map (fun x => x * unitFactor u)) := by
  rcases hu with rfl | rfl | rfl | rfl <;>
    simp [convert_units, unitFactor] <;> norm_num

theorem C9_witness :
    convert_units [2, 4] "us" = some ([2, 4].map (fun x => x * unitFactor "us")) :=
  C9_convert_units [2, 4] "us" (Or.inr (Or.inl rfl))

/-! ## Invalid words and rollover insertion -/

lemma loopState_append (X Y : List Nat) (q : Int) (c : Nat) :
    loopState (X ++ Y) q c = loopState Y (loopState X q c).1 (loopState X q c).2 := by
  induction X generalizing q c with
  | nil => rfl
  | cons x xs ih =>
    simp only [List.cons_append, loopState, List.append_eq]
    exact ih _ _

/-- C4: a word whose trailer flag bit (bit 4) is set contributes no entry
to either output list, but still updates the previous-value sentinel to
its raw value and steps the rollover count, and its raw value can change
(trigger or suppress) a rollover affecting later words: two streams that
differ only in an invalid word's counter value decode to different
timestamps for a later word. -/
theorem C4_invalid_word_updates_tracking_only :
    (∀ (A B : List Nat) (w : Nat) (p : Int) (c : Nat),
      (w &&& 0x1F) &&& 0x10 ≠ 0 →
      readLoop id (A ++ w :: B) p c
        = ((readLoop id A p c).1
            ++ (readLoop id B ((w >>> 5 : Nat) : Int)
                  (stepCount (loopState A p c).1 (w >>> 5) (loopState A p c).2)).1,
           (readLoop id A p c).2
            ++ (readLoop id B ((w >>> 5 : Nat) : Int)
                  (stepCount (loopState A p c).1 (w >>> 5) (loopState A p c).2)).2))
    ∧ ((1616 : Nat) &&& 0x1F) &&& 0x10 ≠ 0 ∧ ((176 : Nat) &&& 0x1F) &&& 0x10 ≠ 0
    ∧ (read_timestamps [96, 0, 0, 0, 80, 6, 0, 0, 224, 0, 0, 0]).1
        ≠ (read_timestamps [96, 0, 0, 0, 176, 0, 0, 0, 224, 0, 0, 0]).1 := by
  refine ⟨?_, by decide, by decide, by decide⟩
  intro A B w p c hw
  rw [readLoop_append id A (w :: B) p c]
  have hstep : readLoop id (w :: B) (loopState A p c).1 (loopState A p c).2
      = readLoop id B ((w >>> 5 : Nat) : Int)
          (stepCount (loopState A p c).1 (w >>> 5) (loopState A p c).2) := by
    simp only [readLoop, if_neg hw]
  rw [hstep]

theorem C4_witness :
    readLoop id ([96] ++ 1616 :: [224]) (-1) 0
      = ((readLoop id [96] (-1) 0).1
          ++ (readLoop id [224] (((1616 : Nat) >>> 5 : Nat) : Int)
                (stepCount (loopState [96] (-1) 0).1 ((1616 : Nat) >>> 5)
                  (loopState [96] (-1) 0).2)).1,
         (readLoop id [96] (-1) 0).2
          ++ (readLoop id [224] (((1616 : Nat) >>> 5 : Nat) : Int)
                (stepCount (loopState [96] (-1) 0).1 ((1616 : Nat) >>> 5)
                  (loopState [96] (-1) 0).2)).2) :=
  C4_invalid_word_updates_tracking_only.1 [96] [224] 1616 (-1) 0 (by decide)

/-- C2 counterexample: inserting the rollover word 64 (raw value 2) into
the word stream 160, 96 (raw values 5, 3) does not change the timestamp of
the subsequent valid word at all — the inserted wrap absorbs the rollover
the pair (5, 3) already produced — so the claimed uniform shift by
2^27 × 2 fails. -/
theorem C2_counterexample :
    (64 : Nat) >>> 5 < (160 : Nat) >>> 5
    ∧ (read_timestamps [160, 0, 0, 0, 64, 0, 0, 0, 96, 0, 0, 0]).1
        = [10, 268435460, 268435462]
    ∧ (read_timestamps [160, 0, 0, 0, 96, 0, 0, 0]).1 = [10, 268435462]
    ∧ (268435462 : Nat) ≠ 268435462 + 2 ^ 27 * 2 := by
  decide

lemma readLoop_insert_shift {α : Type} (f : Nat → α) (B : List Nat) (u v c : Nat)
    (hhead : ∀ b0 ∈ B.head?, (b0 >>> 5 < u ↔ b0 >>> 5 < v)) :
    (readLoop f B (u : Int) (c + 1)).1
      = (readLoop f B (v : Int) c).1.map (· + periode_duration) := by
  cases B with
  | nil => simp [readLoop]
  | cons b B' =>
    have hb : b >>> 5 < u ↔ b >>> 5 < v := hhead b (by simp)
    simp only [readLoop, stepCount_coe]
    have hc : (if b >>> 5 < u then c + 1 + 1 else c + 1)
        = (if b >>> 5 < v then c + 1 else c) + 1 := by
      by_cases h : b >>> 5 < v
      · simp [h, hb.mpr h]
      · simp [h, mt hb.mp h]
    rw [hc]
    set c' := if b >>> 5 < v then c + 1 else c with hc'
    obtain ⟨h1, -⟩ := readLoop_shift f B' ((b >>> 5 : Nat) : Int) c' 1
    by_cases hvalid : (b &&& 0x1F) &&& 0x10 = 0 <;>
      simp [hvalid, h1, Nat.mul_one]
    ring

/-- C2 amended: inserting, immediately after a word with raw value `p >>> 5`,
one rollover word `w` (raw value strictly smaller) adds exactly 2^27 × 2 to
the decoded timestamp of every subsequent valid word — provided the word
following the insertion point compares to `w` as it compared to `p`.
(When instead `w`'s raw value ≤ the next raw value < `p`'s raw value, the
inserted wrap absorbs a rollover the original stream already counted and
subsequent timestamps are unchanged, as `C2_counterexample` shows.) -/
theorem C2_amended_rollover_insertion (A B : List Nat) (p w : Nat)
    (hroll : w >>> 5 < p >>> 5)
    (hhead : ∀ b0 ∈ B.head?, (b0 >>> 5 < w >>> 5 ↔ b0 >>> 5 < p >>> 5)) :
    (decode_words ((A ++ [p]) ++ w :: B)).1.drop
        ((decode_words (A ++ [p])).1.length
          + (if (w &&& 0x1F) &&& 0x10 = 0 then 1 else 0))
      = ((decode_words ((A ++ [p]) ++ B)).1.drop
          ((decode_words (A ++ [p])).1.length)).map (· + 2 ^ 27 * 2) := by
  have hpp : loopState (A ++ [p]) (-1) 0
      = (((p >>> 5 : Nat) : Int),
         stepCount (loopState A (-1) 0).1 (p >>> 5) (loopState A (-1) 0).2) := by
    rw [loopState_append]
    rfl
  set c1 := stepCount (loopState A (-1) 0).1 (p >>> 5) (loopState A (-1) 0).2 with hc1
  have hcnt : stepCount (((p >>> 5 : Nat) : Int)) (w >>> 5) c1 = c1 + 1 := by
    rw [stepCount_coe, if_pos hroll]
  have hT := readLoop_insert_shift id B (w >>> 5) (p >>> 5) c1 hhead
  unfold decode_words
  rw [readLoop_append id (A ++ [p]) (w :: B) (-1) 0,
      readLoop_append id (A ++ [p]) B (-1) 0, hpp]
  simp only [readLoop, hcnt]
  have hfun : ∀ l : List Nat,
      (l.map (fun x => x + periode_duration)).map (fun x => x * 2)
        = (l.map (fun x => x * 2)).map (fun x => x + 2 ^ 27 * 2) := by
    intro l
    induction l with
    | nil => rfl
    | cons a l ih =>
      simp only [List.map_cons, ih, List.cons.injEq, and_true]
      rw [periode_duration_eq]
      omega
  by_cases hvalid : (w &&& 0x1F) &&& 0x10 = 0
  · simp only [if_pos hvalid]
    rw [hT]
    simp only [List.map_append, List.map_cons]
    rw [List.drop_append 1, List.drop_left, List.drop_one, List.tail_cons]
    exact hfun _
  · simp only [if_neg hvalid]
    rw [hT]
    simp only [List.map_append]
    rw [List.drop_append 0, List.drop_zero, List.drop_left]
    exact hfun _

theorem C2_amended_witness :
    (decode_words (([] ++ [160]) ++ 64 :: [224])).1.drop
        ((decode_words ([] ++ [160])).1.length
          + (if ((64 : Nat) &&& 0x1F) &&& 0x10 = 0 then 1 else 0))
      = ((decode_words (([] ++ [160]) ++ [224])).1.drop
          ((decode_words ([] ++ [160])).1.length)).map (· + 2 ^ 27 * 2) :=
  C2_amended_rollover_insertion [] [224] 160 64 (by decide)
    (by
      intro b0 hb
      simp only [List.head?_cons, Option.mem_def, Option.some.injEq] at hb
      subst hb
      decide)

/-! ## Round-trip encoding (C6) -/

/-- Little-endian 4-byte layout of a 32-bit word: the wire layout whose
reverse/chunk/reverse extraction `ts_word_list` undoes. -/
def leBytes4 (w : Nat) : List Nat :=
  [w % 256, w / 256 % 256, w / 256 ^ 2 % 256, w / 256 ^ 3 % 256]

/-- Pack one (tick, pattern) pair into a decoder word per §4.1: the 27-bit
counter value in the high 27 bits (one counter step is 2 output time
units, so the counter value is `tick / 2`, reduced mod 2^27), the 4-bit
channel pattern in the low 4 bits, the flag bit (bit 4) clear. -/
def encodePair (tick pattern : Nat) : Nat :=
  (tick / 2 % 2 ^ 27) * 32 + pattern

/-- Encode (tick, pattern) pairs into the binary stream layout consumed by
`read_timestamps`: consecutive little-endian 4-byte words. -/
def encode (pairs : List (Nat × Nat)) : List Nat :=
  pairs.flatMap (fun tp => leBytes4 (encodePair tp.1 tp.2))

lemma shiftRight5_eq_div (w : Nat) : w >>> 5 = w / 32 := by
  omega

lemma and31_eq_mod (w : Nat) : w &&& 0x1F = w % 32 := by
  have h := Nat.and_pow_two_sub_one_eq_mod w 5
  norm_num at h
  exact h

lemma and16_of_lt16 (p : Nat) (hp : p < 16) : p &&& 0x10 = 0 := by
  have h16 : (16 : Nat) = 2 ^ 4 := by norm_num
  have ht : p.testBit 4 = false := Nat.testBit_lt_two_pow (h16 ▸ hp)
  have h := Nat.and_two_pow p 4
  norm_num [ht] at h
  exact h

lemma and15_of_lt16 (p : Nat) (hp : p < 16) : p &&& 0xF = p := by
  have h := Nat.and_pow_two_sub_one_eq_mod p 4
  norm_num at h
  rw [h]
  exact Nat.mod_eq_of_lt hp

lemma encodePair_shift (t p : Nat) (hp : p < 16) :
    encodePair t p >>> 5 = t / 2 % 2 ^ 27 := by
  simp only [shiftRight5_eq_div, encodePair]
  omega

lemma encodePair_and31 (t p : Nat) (hp : p < 16) :
    encodePair t p &&& 0x1F = p := by
  simp only [and31_eq_mod, encodePair]
  omega

lemma leVal_leBytes4 (w : Nat) (h : w < 2 ^ 32) : leVal (leBytes4 w) = w := by
  simp only [leBytes4, leVal]
  omega

lemma encodePair_lt (t p : Nat) (hp : p < 16) : encodePair t p < 2 ^ 32 := by
  have h1 : t / 2 % 2 ^ 27 < 2 ^ 27 := Nat.mod_lt _ (by norm_num)
  simp only [encodePair]
  omega

lemma chunk4_cons4 (a b c d : Nat) (E : List Nat) :
    chunk4 (a :: b :: c :: d :: E) = [a, b, c, d] :: chunk4 E := rfl

lemma chunk4_encode (pairs : List (Nat × Nat)) :
    chunk4 (encode pairs)
      = pairs.map (fun tp => leBytes4 (encodePair tp.1 tp.2)) := by
  induction pairs with
  | nil => rfl
  | cons tp rest ih =>
    have henc : encode (tp :: rest)
        = leBytes4 (encodePair tp.1 tp.2) ++ encode rest := rfl
    rw [henc]
    simp only [leBytes4, List.cons_append, List.nil_append, chunk4_cons4,
      List.map_cons, ih]

lemma encode_length (pairs : List (Nat × Nat)) :
    (encode pairs).length = 4 * pairs.length := by
  induction pairs with
  | nil => rfl
  | cons tp rest ih =>
    have henc : encode (tp :: rest)
        = leBytes4 (encodePair tp.1 tp.2) ++ encode rest := rfl
    simp only [henc, List.length_append, ih, leBytes4, List.length_cons,
      List.length_nil, List.length_map]
    omega

lemma map_leVal_encode (pairs : List (Nat × Nat))
    (hp : ∀ tp ∈ pairs, tp.2 < 16) :
    (pairs.map (fun tp => leBytes4 (encodePair tp.1 tp.2))).map leVal
      = pairs.map (fun tp => encodePair tp.1 tp.2) := by
  induction pairs with
  | nil => rfl
  | cons tp rest ih =>
    simp only [List.map_cons, List.cons.injEq]
    exact ⟨leVal_leBytes4 _ (encodePair_lt _ _ (hp tp (by simp))),
      ih fun x hx => hp x (by simp [hx])⟩

lemma ts_word_list_encode (pairs : List (Nat × Nat))
    (hp : ∀ tp ∈ pairs, tp.2 < 16) :
    ts_word_list (encode pairs) = pairs.map (fun tp => encodePair tp.1 tp.2) := by
  rw [ts_word_list_aligned _ (by rw [encode_length]; exact ⟨pairs.length, rfl⟩),
    chunk4_encode]
  exact map_leVal_encode pairs hp

lemma stepCount_neg1 (t c : Nat) : stepCount (-1) t c = c := by
  unfold stepCount
  simp

lemma readLoop_encoded (pairs : List (Nat × Nat)) (nprev : Nat)
    (hp : ∀ tp ∈ pairs, tp.2 < 16)
    (hchain : List.Chain (fun a b => a ≤ b ∧ b - a < 2 ^ 27) nprev
        (pairs.map (fun tp => tp.1 / 2))) :
    readLoop id (pairs.map (fun tp => encodePair tp.1 tp.2))
        ((nprev % 2 ^ 27 : Nat) : Int) (nprev / 2 ^ 27)
      = (pairs.map (fun tp => tp.1 / 2), pairs.map (fun tp => tp.2)) := by
  induction pairs generalizing nprev with
  | nil => rfl
  | cons tp rest ih =>
    simp only [List.map_cons, List.chain_cons] at hchain
    obtain ⟨⟨hle, hgap⟩, hchain'⟩ := hchain
    have hpt16 : tp.2 < 16 := hp tp (by simp)
    have hcnt : stepCount ((nprev % 2 ^ 27 : Nat) : Int) (tp.1 / 2 % 2 ^ 27)
        (nprev / 2 ^ 27) = tp.1 / 2 / 2 ^ 27 := by
      rw [stepCount_coe]
      split_ifs with h <;> omega
    have hrec := ih (tp.1 / 2) (fun x hx => hp x (List.mem_cons_of_mem _ hx)) hchain'
    simp only [List.map_cons, readLoop, encodePair_shift _ _ hpt16,
      encodePair_and31 _ _ hpt16, hcnt, hrec,
      if_pos (and16_of_lt16 _ hpt16), and15_of_lt16 _ hpt16, id]
    rw [periode_duration_eq, Nat.mod_add_div]

lemma map_halftick (l : List (Nat × Nat)) (h : ∀ tp ∈ l, tp.1 % 2 = 0) :
    (l.map (fun tp => tp.1 / 2)).map (fun x => x * 2) = l.map (fun tp => tp.1) := by
  induction l with
  | nil => rfl
  | cons tp rest ih =>
    simp only [List.map_cons, List.cons.injEq]
    refine ⟨?_, ih fun x hx => h x (by simp [hx])⟩
    have := h tp (by simp)
    omega

/-- C6: round-trip — encoding (tick, pattern) pairs with even ticks,
4-bit patterns, the first counter value within the first rollover period,
and non-decreasing ticks whose consecutive gaps stay below one rollover
period, into consecutive little-endian words per §4.1, then decoding with
`read_timestamps`, reproduces exactly the original pairs. -/
theorem C6_roundtrip (pairs : List (Nat × Nat))
    (hpat : ∀ tp ∈ pairs, tp.2 < 16)
    (heven : ∀ tp ∈ pairs, tp.1 % 2 = 0)
    (hfirst : ∀ tp0 ∈ pairs.head?, tp0.1 / 2 < 2 ^ 27)
    (hchain : List.Chain' (fun a b => a ≤ b ∧ b - a < 2 ^ 27)
        (pairs.map (fun tp => tp.1 / 2))) :
    read_timestamps (encode pairs)
      = (pairs.map (fun tp => tp.1), pairs.map (fun tp => tp.2)) := by
  unfold read_timestamps decode_words
  rw [ts_word_list_encode pairs hpat]
  cases pairs with
  | nil => rfl
  | cons tp rest =>
    have hpt16 : tp.2 < 16 := hpat tp (by simp)
    have hn0 : tp.1 / 2 < 2 ^ 27 := hfirst tp (by simp)
    have hchain0 : List.Chain (fun a b => a ≤ b ∧ b - a < 2 ^ 27) (tp.1 / 2)
        (rest.map (fun tp => tp.1 / 2)) := by
      have h' := hchain
      simp only [List.map_cons] at h'
      exact h'
    have hrec := readLoop_encoded rest (tp.1 / 2)
      (fun x hx => hpat x (List.mem_cons_of_mem _ hx)) hchain0
    rw [Nat.div_eq_of_lt hn0] at hrec
    simp only [List.map_cons, readLoop, encodePair_shift _ _ hpt16,
      encodePair_and31 _ _ hpt16, stepCount_neg1,
      if_pos (and16_of_lt16 _ hpt16), and15_of_lt16 _ hpt16, id, hrec]
    rw [Nat.mod_eq_of_lt hn0, Prod.mk.injEq]
    refine ⟨?_, rfl⟩
    rw [List.cons.injEq]
    constructor
    · have := heven tp (by simp)
      rw [periode_duration_eq]
      omega
    · exact map_halftick rest (fun x hx => heven x (List.mem_cons_of_mem _ hx))

theorem C6_witness :
    read_timestamps (encode [(4, 2), (6, 5)])
      = ([(4, 2), (6, 5)].map (fun tp => tp.1), [(4, 2), (6, 5)].map (fun tp => tp.2)) :=
  C6_roundtrip [(4, 2), (6, 5)] (by decide) (by decide)
    (by
      intro tp0 h
      simp only [List.head?_cons, Option.mem_def, Option.some.injEq] at h
      subst h
      decide)
    (by
      simp only [List.map_cons, List.map_nil, List.chain'_cons, List.chain'_singleton]
      norm_num)

end Plupy
